import Mathlib

/-!
Verification of the appstore repository's convergence engine, release
lifecycle manager, chart source mirror and message ingestion pipeline.

The Go source is shallowly embedded: JSON value trees become an inductive
type, the Kubernetes / Helm side effects of one reconcile pass are supplied
by an environment record of call outcomes, and each pass is a pure function
from (environment, record) to (record, emitted calls, requeue result, error
flag).
-/

namespace Appstore

/-! ## JSON value trees (Go `map[string]interface{}` values)

JSON numbers decode to Go `float64`; they are modelled here as integers,
which is faithful for every property proved (none depends on numeric
semantics).  Objects are insertion-ordered association lists; a Go map is
such a list with no duplicate keys. -/

inductive Value : Type where
  | null : Value
  | bool (b : Bool) : Value
  | num (n : Int) : Value
  | str (s : String) : Value
  | arr (elems : List Value) : Value
  | obj (fields : List (String × Value)) : Value

/-- Lookup of a key in an association list (Go `dst[key]` read). -/
def alookup {α : Type} : List (String × α) → String → Option α
  | [], _ => none
  | (k, v) :: rest, key => if k = key then some v else alookup rest key

/-- Map write `dst[key] = v`: replace the binding in place, else append. -/
def setKey {α : Type} : List (String × α) → String → α → List (String × α)
  | [], key, v => [(key, v)]
  | (k, w) :: rest, key, v =>
      if k = key then (k, v) :: rest else (k, w) :: setKey rest key v

mutual

/-- The per-key decision of `mergeMaps`: when the existing binding and the
incoming value are both maps, merge recursively; otherwise the incoming
value replaces. -/
def mergeValue : Option Value → Value → Value
  | some (Value.obj dstMap), Value.obj srcMap => Value.obj (mergeMaps dstMap srcMap)
  | _, srcVal => srcVal

/-- Embeds `mergeMaps` (controller): recursively merge `src` into `dst`;
for each key of `src`, recurse when both sides are maps, otherwise the
`src` value replaces. -/
def mergeMaps : List (String × Value) → List (String × Value) → List (String × Value)
  | dst, [] => dst
  | dst, (key, srcVal) :: rest =>
      mergeMaps (setKey dst key (mergeValue (alookup dst key) srcVal)) rest

end

/-- Key-order relation used to sort object fields, as Go `encoding/json`
sorts map keys before encoding. -/
def keyLE {α : Type} (p q : String × α) : Prop := p.1 ≤ q.1

instance {α : Type} : DecidableRel (keyLE (α := α)) :=
  fun p q => inferInstanceAs (Decidable (p.1 ≤ q.1))

instance {α : Type} : IsTotal (String × α) keyLE :=
  ⟨fun p q => le_total p.1 q.1⟩

instance {α : Type} : IsTrans (String × α) keyLE :=
  ⟨fun _ _ _ h1 h2 => le_trans h1 h2⟩

/-- Sort an association list by key. -/
def sortPairs {α : Type} (l : List (String × α)) : List (String × α) :=
  List.insertionSort keyLE l

def joinComma : List String → String
  | [] => ""
  | [s] => s
  | s :: rest => s ++ "," ++ joinComma rest

def quoteStr (s : String) : String := "\"" ++ s ++ "\""

mutual

/-- Embeds `encoding/json.Marshal` on the value trees that occur here.
Go marshals maps with their keys sorted (documented behaviour of
`encoding/json`), which is what makes `hashValues` deterministic.  Fields
are rendered first and then sorted by key, which produces the same bytes
as sorting first, since each field renders independently.  String escaping
is omitted; no property proved depends on it. -/
def jsonMarshal : Value → String
  | Value.null => "null"
  | Value.bool b => cond b "true" "false"
  | Value.num n => toString n
  | Value.str s => quoteStr s
  | Value.arr elems => "[" ++ joinComma (marshalElems elems) ++ "]"
  | Value.obj fields =>
      "\x7b" ++
        joinComma ((sortPairs (marshalFields fields)).map
          (fun kv => quoteStr kv.1 ++ ":" ++ kv.2)) ++
      "\x7d"

/-- Marshal each array element (helper of `jsonMarshal`). -/
def marshalElems : List Value → List String
  | [] => []
  | v :: rest => jsonMarshal v :: marshalElems rest

/-- Render each object field's value (helper of `jsonMarshal`). -/
def marshalFields : List (String × Value) → List (String × String)
  | [] => []
  | (k, v) :: rest => (k, jsonMarshal v) :: marshalFields rest

end

/-- One step of the digest used to model `sha256.Sum256`.  The SHA-256
digest itself is replaced by an executable stand-in (an FNV-style fold);
every property proved about `hashValues` depends only on the digest being
a deterministic function of the serialized bytes, which holds for SHA-256
as well. -/
def digestStep (h : Nat) (c : Char) : Nat :=
  (h * 16777619 + c.toNat) % (2 ^ 64)

/-- Hex rendering of the digest state (models the `%x` formatting of the
truncated hash). -/
def hexDigest (s : String) : String :=
  String.mk (Nat.toDigits 16 (s.foldl digestStep 2166136261))

/-- Embeds `hashValues` (controller): serialize the values map with
`jsonMarshal` and digest the bytes. -/
def hashValues (values : List (String × Value)) : String :=
  hexDigest (jsonMarshal (Value.obj values))

/-! ## Operator data model (`api/v1alpha1/appdeployment_types.go`) -/

/-- The `AppDeploymentPhase` string enum. -/
inductive Phase : Type where
  | pending
  | installing
  | upgrading
  | deployed
  | failed
  | uninstalling
deriving Repr, DecidableEq

/-- The string value of a phase, used for condition reasons. -/
def Phase.toStringRep : Phase → String
  | pending => "Pending"
  | installing => "Installing"
  | upgrading => "Upgrading"
  | deployed => "Deployed"
  | failed => "Failed"
  | uninstalling => "Uninstalling"

/-- `ValuesReference`: a ConfigMap/Secret reference for Helm values. -/
structure ValuesReference : Type where
  kind : String
  name : String
  valuesKey : String
  optional : Bool
deriving Repr, DecidableEq

/-- `AppDeploymentSpec`.  `values` holds the decoded form of the raw JSON
field `spec.values` (`none` models a nil pointer); decoding of well-formed
records always succeeds, so the `json.Unmarshal` failure branch of
`getValues` is not modelled. -/
structure AppDeploymentSpec : Type where
  appName : String
  chartVersion : String
  teamID : String
  requestedBy : String
  releaseName : String
  values : Option (List (String × Value))
  valuesFrom : List ValuesReference
  autoUpgrade : Bool
  suspend : Bool

/-- A `metav1.Condition` as used by the controller.  Only the `True` and
`False` condition statuses occur in this code, so the status is a `Bool`;
the unused `observedGeneration` field is omitted. -/
structure Condition : Type where
  type : String
  status : Bool
  reason : String
  message : String
  lastTransitionTime : Nat
deriving Repr, DecidableEq

/-- `AppDeploymentStatus`.  Timestamps are abstract instants (`Nat`);
`phase := none` models the empty phase string of a fresh record. -/
structure AppDeploymentStatus : Type where
  phase : Option Phase
  helmReleaseName : String
  helmReleaseRevision : Int
  deployedChartVersion : String
  lastAttemptedChartVersion : String
  lastAppliedValuesHash : String
  conditions : List Condition
  lastReconcileTime : Option Nat
  observedGeneration : Int
  failureCount : Int
  message : String
deriving Repr, DecidableEq

/-- The zero value of `AppDeploymentStatus`. -/
def initStatus : AppDeploymentStatus :=
  ⟨none, "", 0, "", "", "", [], none, 0, 0, ""⟩

/-- An `AppDeployment` object together with the object metadata the
controller reads: name, namespace (`nspace`, since `namespace` is a Lean
keyword), labels, annotations, generation, whether the deletion timestamp
is set (`!DeletionTimestamp.IsZero()`), and the finalizer list. -/
structure AppDeployment : Type where
  name : String
  nspace : String
  labels : List (String × String)
  annotations : List (String × String)
  generation : Int
  deletionTimestampSet : Bool
  finalizers : List String
  spec : AppDeploymentSpec
  status : AppDeploymentStatus

/-- `helm.ReleaseInfo`. -/
structure ReleaseInfo : Type where
  name : String
  nspace : String
  revision : Int
  status : String
  chartName : String
  chartVersion : String
  appVersion : String
  updated : Nat
deriving Repr, DecidableEq

/-! ## Controller constants (`appdeployment_controller.go`) -/

def finalizerName : String := "appstore.bitpipe.no/finalizer"

def conditionTypeReady : String := "Ready"

def conditionTypeReconciling : String := "Reconciling"

/-- `requeueAfterSuccess = 5 * time.Minute`, in seconds. -/
def requeueAfterSuccess : Nat := 300

/-- `requeueAfterFailure = 30 * time.Second`, in seconds. -/
def requeueAfterFailure : Nat := 30

/-! ## Reconciliation environment

One reconcile pass interacts with the outside world through the Helm
client, the chart validator, the Kubernetes API (reads of referenced
ConfigMaps/Secrets, status updates, object updates) and the clock.  The
outcome of each such interaction during the pass is supplied by this
record, so a pass is a pure function of (environment, record). -/

/-- The `ChartValidator` interface (`ChartExists` / `ListCharts`). -/
structure ChartValidatorModel : Type where
  chartExists : String → Bool
  listCharts : List String

/-- Call outcomes for one reconcile pass.  `getRelease` is
`HelmClient.GetRelease`: `.error ()` a lookup failure, `.ok none` an
absent release, `.ok (some r)` an existing release (`ReleaseExists`
derives from it).  `statusOk` is the outcome of the pass's
`r.Status().Update` calls and `updateOk` of its `r.Update` calls
(finalizer add/remove); `now` is the clock. -/
structure ReconcileEnv : Type where
  chartValidator : Option ChartValidatorModel
  fetchRef : ValuesReference → Except Unit (List (String × Value))
  getRelease : Except Unit (Option ReleaseInfo)
  installResult : Except Unit ReleaseInfo
  upgradeResult : Except Unit ReleaseInfo
  uninstallResult : Except Unit Unit
  statusOk : Bool
  updateOk : Bool
  now : Nat

/-- A recorded call to `HelmClient.Install` or `HelmClient.Upgrade`. -/
structure HelmCall : Type where
  releaseName : String
  chartName : String
  nspace : String
  values : List (String × Value)
  version : String

/-- The externally visible calls one pass made: install calls, upgrade
calls, uninstall calls (release name, namespace), and every phase value
successfully written to status, in order. -/
structure Effects : Type where
  installs : List HelmCall
  upgrades : List HelmCall
  uninstalls : List (String × String)
  phaseWrites : List Phase

def Effects.empty : Effects := ⟨[], [], [], []⟩

/-- `ctrl.Result`: `requeueAfter = 0` models an unset `RequeueAfter`. -/
structure CtrlResult : Type where
  requeue : Bool
  requeueAfter : Nat
deriving Repr, DecidableEq

def CtrlResult.empty : CtrlResult := ⟨false, 0⟩

/-- The outcome of one pass: the persisted record, the calls made, the
returned `ctrl.Result` and whether a non-nil error was returned. -/
structure ReconOut : Type where
  record : AppDeployment
  effects : Effects
  result : CtrlResult
  isErr : Bool

/-! ## Status helpers (`appdeployment_controller.go`) -/

/-- Embeds `meta.SetStatusCondition`: update the condition of the same
type in place (refreshing the transition time only when the status flips),
or append it. -/
def setStatusCondition (conds : List Condition) (newC : Condition) : List Condition :=
  if conds.any (fun c => c.type == newC.type) then
    conds.map (fun c =>
      if c.type = newC.type then
        { c with
            status := newC.status
            lastTransitionTime :=
              if c.status = newC.status then c.lastTransitionTime
              else newC.lastTransitionTime
            reason := newC.reason
            message := newC.message }
      else c)
  else conds ++ [newC]

/-- Embeds `updateStatusPhase`.  The Go code mutates the object and then
persists it with `r.Status().Update`; the model tracks the persisted
record, so the mutation is applied only when the update succeeds (the Go
caller returns immediately on failure, so the in-memory mutation is never
observed).  Returns the record, the phases written, and the error flag. -/
def updateStatusPhase (env : ReconcileEnv) (d : AppDeployment) (phase : Phase)
    (message : String) : AppDeployment × List Phase × Bool :=
  let st :=
    { d.status with
        phase := some phase
        message := message
        lastReconcileTime := some env.now
        observedGeneration := d.generation
        conditions := setStatusCondition d.status.conditions
          ⟨conditionTypeReconciling, true, phase.toStringRep, message, env.now⟩ }
  if env.statusOk then ({ d with status := st }, [phase], false)
  else (d, [], true)

/-- Embeds `updateStatusDeployed`: record the release info and hash, clear
the failure counter, set `Ready=True` and `Reconciling=False`, and requeue
after the success interval. -/
def updateStatusDeployed (env : ReconcileEnv) (d : AppDeployment)
    (relInfo : ReleaseInfo) (valuesHash : String) :
    AppDeployment × List Phase × CtrlResult × Bool :=
  let st :=
    { d.status with
        phase := some Phase.deployed
        message := "Helm release deployed successfully"
        helmReleaseName := relInfo.name
        helmReleaseRevision := relInfo.revision
        deployedChartVersion := relInfo.chartVersion
        lastAppliedValuesHash := valuesHash
        lastReconcileTime := some env.now
        observedGeneration := d.generation
        failureCount := 0 }
  let st2 :=
    { st with
        conditions :=
          setStatusCondition
            (setStatusCondition st.conditions
              ⟨conditionTypeReady, true, "Deployed",
                "Helm release is deployed and ready", env.now⟩)
            ⟨conditionTypeReconciling, false, "Deployed",
              "Reconciliation complete", env.now⟩ }
  if env.statusOk then
    ({ d with status := st2 }, [Phase.deployed], ⟨false, requeueAfterSuccess⟩, false)
  else (d, [], CtrlResult.empty, true)

/-- Embeds `updateStatusFailed`: set phase `Failed`, increment the failure
counter, set `Ready=False`, and requeue after the failure interval with a
nil error (failure is soft). -/
def updateStatusFailed (env : ReconcileEnv) (d : AppDeployment) (message : String) :
    AppDeployment × List Phase × CtrlResult × Bool :=
  let st :=
    { d.status with
        phase := some Phase.failed
        message := message
        lastReconcileTime := some env.now
        observedGeneration := d.generation
        failureCount := d.status.failureCount + 1
        conditions := setStatusCondition d.status.conditions
          ⟨conditionTypeReady, false, "Failed", message, env.now⟩ }
  if env.statusOk then
    ({ d with status := st }, [Phase.failed], ⟨false, requeueAfterFailure⟩, false)
  else (d, [], CtrlResult.empty, true)

/-! ## Values resolution (`getValues` / `getValuesFromReference`)

`getValuesFromReference` (ConfigMap/Secret fetch, key defaulting and JSON
decode) is an environment interaction; its per-reference outcome is
`env.fetchRef`. -/

/-- The `valuesFrom` loop of `getValues`: merge each reference's values in
declared order; a failing optional reference is skipped, a failing
required reference aborts. -/
def mergeRefs (fetchRef : ValuesReference → Except Unit (List (String × Value))) :
    List ValuesReference → List (String × Value) →
    Except Unit (List (String × Value))
  | [], acc => .ok acc
  | ref :: rest, acc =>
      match fetchRef ref with
      | .error _ => if ref.optional then mergeRefs fetchRef rest acc else .error ()
      | .ok refValues => mergeRefs fetchRef rest (mergeMaps acc refValues)

/-- Embeds `getValues`: start from the empty map, merge the `valuesFrom`
references in order, then merge the inline spec values on top. -/
def getValues (fetchRef : ValuesReference → Except Unit (List (String × Value)))
    (spec : AppDeploymentSpec) : Except Unit (List (String × Value)) :=
  match mergeRefs fetchRef spec.valuesFrom [] with
  | .error e => .error e
  | .ok values =>
      match spec.values with
      | some specValues => .ok (mergeMaps values specValues)
      | none => .ok values

/-- Embeds `needsUpgrade`: the stored values hash differs, or an explicit
chart version is set and differs (string equality) from the deployed one. -/
def needsUpgrade (d : AppDeployment) (rel : ReleaseInfo) (valuesHash : String) : Bool :=
  if d.status.lastAppliedValuesHash ≠ valuesHash then true
  else if d.spec.chartVersion ≠ "" ∧ d.spec.chartVersion ≠ rel.chartVersion then true
  else false

/-- The chart validation guard of `reconcileHelm`: passes when the
validator is nil or reports the chart present. -/
def chartValidationPasses (env : ReconcileEnv) (d : AppDeployment) : Bool :=
  match env.chartValidator with
  | none => true
  | some v => v.chartExists d.spec.appName

/-- The release-name resolution shared by `reconcileHelm` and
`reconcileDelete`: the explicit `spec.releaseName`, else the object name. -/
def resolveReleaseName (d : AppDeployment) : String :=
  if d.spec.releaseName = "" then d.name else d.spec.releaseName

/-! ## The reconcile pass (`Reconcile` / `reconcileHelm` / `reconcileDelete`) -/

/-- Embeds `reconcileHelm`: validate the chart, resolve values and their
hash, then install (release absent), upgrade (release present and
`needsUpgrade`) or leave the release alone, updating status accordingly. -/
def reconcileHelm (env : ReconcileEnv) (d : AppDeployment) : ReconOut :=
  if chartValidationPasses env d then
    let releaseName := resolveReleaseName d
    match getValues env.fetchRef d.spec with
    | .error _ =>
        let (d1, pw, res, err) := updateStatusFailed env d "Failed to get values"
        ⟨d1, ⟨[], [], [], pw⟩, res, err⟩
    | .ok values =>
        let valuesHash := hashValues values
        match env.getRelease with
        | .error _ =>
            let (d1, pw, res, err) :=
              updateStatusFailed env d "Failed to check existing release"
            ⟨d1, ⟨[], [], [], pw⟩, res, err⟩
        | .ok none =>
            let (d1, pw1, err1) :=
              updateStatusPhase env d Phase.installing "Installing Helm chart"
            if err1 then ⟨d1, ⟨[], [], [], pw1⟩, CtrlResult.empty, true⟩
            else
              let call : HelmCall :=
                ⟨releaseName, d.spec.appName, d.nspace, values, d.spec.chartVersion⟩
              match env.installResult with
              | .error _ =>
                  let (d2, pw2, res, err) :=
                    updateStatusFailed env d1 "Failed to install"
                  ⟨d2, ⟨[call], [], [], pw1 ++ pw2⟩, res, err⟩
              | .ok relInfo =>
                  let (d2, pw2, res, err) :=
                    updateStatusDeployed env d1 relInfo valuesHash
                  ⟨d2, ⟨[call], [], [], pw1 ++ pw2⟩, res, err⟩
        | .ok (some existingRelease) =>
            if needsUpgrade d existingRelease valuesHash then
              let (d1, pw1, err1) :=
                updateStatusPhase env d Phase.upgrading "Upgrading Helm chart"
              if err1 then ⟨d1, ⟨[], [], [], pw1⟩, CtrlResult.empty, true⟩
              else
                let call : HelmCall :=
                  ⟨releaseName, d.spec.appName, d.nspace, values, d.spec.chartVersion⟩
                match env.upgradeResult with
                | .error _ =>
                    let (d2, pw2, res, err) :=
                      updateStatusFailed env d1 "Failed to upgrade"
                    ⟨d2, ⟨[], [call], [], pw1 ++ pw2⟩, res, err⟩
                | .ok relInfo =>
                    let (d2, pw2, res, err) :=
                      updateStatusDeployed env d1 relInfo valuesHash
                    ⟨d2, ⟨[], [call], [], pw1 ++ pw2⟩, res, err⟩
            else
              let (d1, pw, res, err) :=
                updateStatusDeployed env d existingRelease valuesHash
              ⟨d1, ⟨[], [], [], pw⟩, res, err⟩
  else
    let charts := match env.chartValidator with
      | some v => v.listCharts
      | none => []
    let msg := "Chart not found in catalog. Available charts: [" ++
      String.intercalate " " charts ++ "]"
    let (d1, pw, res, err) := updateStatusFailed env d msg
    ⟨d1, ⟨[], [], [], pw⟩, res, err⟩

/-- The tail of `reconcileDelete`: remove the finalizer and persist with
`r.Update` (on update failure the finalizer stays and an error returns). -/
def finishDelete (env : ReconcileEnv) (d1 : AppDeployment) (eff : Effects) : ReconOut :=
  let d2 := { d1 with finalizers := d1.finalizers.filter (fun f => f != finalizerName) }
  if env.updateOk then ⟨d2, eff, CtrlResult.empty, false⟩
  else ⟨d1, eff, CtrlResult.empty, true⟩

/-- Embeds `reconcileDelete`: with the finalizer present, set phase
`Uninstalling`, check release existence, uninstall if it exists, and only
then remove the finalizer; exists-check or uninstall failure keeps the
finalizer and requeues after the failure interval. -/
def reconcileDelete (env : ReconcileEnv) (d : AppDeployment) : ReconOut :=
  if finalizerName ∈ d.finalizers then
    let releaseName := resolveReleaseName d
    let (d1, pw1, err1) :=
      updateStatusPhase env d Phase.uninstalling "Uninstalling Helm release"
    if err1 then ⟨d1, ⟨[], [], [], pw1⟩, CtrlResult.empty, true⟩
    else
      match env.getRelease with
      | .error _ => ⟨d1, ⟨[], [], [], pw1⟩, ⟨false, requeueAfterFailure⟩, true⟩
      | .ok releaseOpt =>
          if releaseOpt.isSome then
            match env.uninstallResult with
            | .error _ =>
                ⟨d1, ⟨[], [], [(releaseName, d.nspace)], pw1⟩,
                  ⟨false, requeueAfterFailure⟩, true⟩
            | .ok _ =>
                finishDelete env d1 ⟨[], [], [(releaseName, d.nspace)], pw1⟩
          else
            finishDelete env d1 ⟨[], [], [], pw1⟩
  else ⟨d, Effects.empty, CtrlResult.empty, false⟩

/-- Embeds `Reconcile` (the fetch of the object is assumed to succeed and
yield `d`): dispatch to deletion handling, add the missing finalizer and
requeue, skip suspended records, else reconcile the Helm release. -/
def reconcile (env : ReconcileEnv) (d : AppDeployment) : ReconOut :=
  if d.deletionTimestampSet then reconcileDelete env d
  else if finalizerName ∈ d.finalizers then
    if d.spec.suspend then ⟨d, Effects.empty, CtrlResult.empty, false⟩
    else reconcileHelm env d
  else
    let d1 := { d with finalizers := d.finalizers ++ [finalizerName] }
    if env.updateOk then ⟨d1, Effects.empty, ⟨true, 0⟩, false⟩
    else ⟨d, Effects.empty, CtrlResult.empty, true⟩

/-! ## Helm uninstall (`helm/client.go` `Uninstall`) -/

/-- The Helm storage backend: the set of existing releases, keyed by
(release name, namespace). -/
abbrev ReleaseStore : Type := List (String × String)

/-- Models `action.Uninstall.Run` of the Helm SDK: it removes the release
from storage, and with `IgnoreNotFound` unset — as in this client, which
sets only `Timeout` and `Wait` — running it against a release that is not
in storage fails with a release-not-found error. -/
def uninstallActionRun (st : ReleaseStore) (releaseName nspace : String) :
    Except Unit ReleaseStore :=
  if (releaseName, nspace) ∈ st then
    .ok (st.filter (fun p => p != (releaseName, nspace)))
  else .error ()

/-- Embeds `Client.Uninstall`: run the uninstall action and wrap any error
(`failed to uninstall release: %w`); no error is swallowed. -/
def clientUninstall (st : ReleaseStore) (releaseName nspace : String) :
    Except Unit ReleaseStore :=
  match uninstallActionRun st releaseName nspace with
  | .error _ => .error ()
  | .ok st1 => .ok st1

/-! ## Chart source mirror (`chartsync/syncer.go`) -/

/-- A directory entry of the local charts copy, as `os.ReadDir` reports
it: its name, whether it is a directory, and whether a `Chart.yaml` file
exists at its root. -/
structure DirEntry : Type where
  name : String
  isDir : Bool
  hasChartYaml : Bool
deriving Repr, DecidableEq

/-- The state of the local charts directory between pulls. -/
abbrev ChartDir : Type := List DirEntry

/-- The hidden-name check `entry.Name()[0] == '.'` (entry names from
`os.ReadDir` are never empty). -/
def hiddenName (s : String) : Bool :=
  match s.data with
  | [] => false
  | c :: _ => c == '.'

/-- Models `os.Stat(filepath.Join(localPath, name, "Chart.yaml"))`
succeeding: some entry of that name is a directory containing
`Chart.yaml`. -/
def statChartYaml (dir : ChartDir) (name : String) : Bool :=
  dir.any (fun e => e.name == name && e.isDir && e.hasChartYaml)

/-- Embeds `ChartExists`: a bare stat of `name/Chart.yaml` — no
hidden-name check. -/
def chartExists (dir : ChartDir) (chartName : String) : Bool :=
  statChartYaml dir chartName

/-- Embeds `ListCharts`: every directory entry that is a directory, is not
hidden (leading dot), and whose `Chart.yaml` stats successfully. -/
def listCharts (dir : ChartDir) : List String :=
  (dir.filter (fun e => e.isDir && !(hiddenName e.name) && statChartYaml dir e.name)).map
    (fun e => e.name)

/-! ## Message ingestion (`rabbitmq/deployment_handler.go`) -/

/-- `models.DeploymentRequestPayload`. -/
structure DeploymentRequestPayload : Type where
  requestID : String
  teamID : String
  userID : String
  appName : String
  nspace : String
  releaseName : String
  version : String
  values : Option (List (String × Value))

/-- The name resolution of `HandleDeploymentRequest`: the explicit release
name, else `appName + "-" + requestID[:8]`.  Slicing a request id shorter
than 8 bytes panics in Go, modelled as `none`.  (Strings are modelled at
character granularity; request ids are ASCII.) -/
def resolvedName (p : DeploymentRequestPayload) : Option String :=
  if p.releaseName = "" then
    if p.requestID.length < 8 then none
    else some (p.appName ++ "-" ++ p.requestID.take 8)
  else some p.releaseName

/-- Whether the cluster store holds an `AppDeployment` with this identity
(namespace, name); `client.Create` fails with `AlreadyExists` exactly
then. -/
def crExists (store : List AppDeployment) (nspace name : String) : Bool :=
  store.any (fun r => r.nspace == nspace && r.name == name)

/-- The `AppDeployment` object that `HandleDeploymentRequest` builds from
a payload and the resolved name. -/
def mkAppDeployment (p : DeploymentRequestPayload) (name : String) : AppDeployment :=
  { name := name
    nspace := p.nspace
    labels :=
      [("appstore.bitpipe.no/team", p.teamID),
       ("appstore.bitpipe.no/app", p.appName),
       ("appstore.bitpipe.no/request-id", p.requestID)]
    annotations := [("appstore.bitpipe.no/requested-by", p.userID)]
    generation := 0
    deletionTimestampSet := false
    finalizers := []
    spec :=
      { appName := p.appName
        chartVersion := p.version
        teamID := p.teamID
        requestedBy := p.userID
        releaseName := name
        values := p.values
        valuesFrom := []
        autoUpgrade := false
        suspend := false }
    status := initStatus }

/-- Embeds `HandleDeploymentRequest` against a cluster store.  The outer
`none` models the Go runtime panic from `payload.RequestID[:8]`;
`json.Marshal` of the values map and `ensureNamespace` always succeed (the
latter is a stub returning nil in the source).  An `AlreadyExists` answer
from `Create` is treated as success and leaves the store unchanged. -/
def handleDeploymentRequest (store : List AppDeployment)
    (p : DeploymentRequestPayload) : Option (Except Unit (List AppDeployment)) :=
  match resolvedName p with
  | none => none
  | some name =>
      if crExists store p.nspace name then some (.ok store)
      else some (.ok (store ++ [mkAppDeployment p name]))

/-! ## Tree equivalence for the hash claim -/

/-- Two value trees that are equal as key-value trees: identical scalars,
element-wise equal arrays, and objects that are maps (no duplicate keys)
defining the same key-to-value function, in any insertion order. -/
inductive VEquiv : Value → Value → Prop where
  | null : VEquiv Value.null Value.null
  | bool (b : Bool) : VEquiv (Value.bool b) (Value.bool b)
  | num (n : Int) : VEquiv (Value.num n) (Value.num n)
  | str (s : String) : VEquiv (Value.str s) (Value.str s)
  | arr (xs ys : List Value) (hlen : xs.length = ys.length)
      (h : ∀ (i : Nat) (hi : i < xs.length) (hj : i < ys.length),
        VEquiv (xs.get ⟨i, hi⟩) (ys.get ⟨i, hj⟩)) :
      VEquiv (Value.arr xs) (Value.arr ys)
  | obj (fs gs : List (String × Value))
      (hf : (fs.map Prod.fst).Nodup) (hg : (gs.map Prod.fst).Nodup)
      (hdom : ∀ k, alookup fs k = none ↔ alookup gs k = none)
      (hval : ∀ k v w, alookup fs k = some v → alookup gs k = some w → VEquiv v w) :
      VEquiv (Value.obj fs) (Value.obj gs)

/-- Strict key order on association-list entries. -/
def keyLT {α : Type} (p q : String × α) : Prop := p.1 < q.1

instance {α : Type} : IsAntisymm (String × α) keyLT :=
  ⟨fun _ _ h1 h2 => absurd h2 (lt_asymm h1)⟩

/-! ## Concrete inputs used by witnesses and counterexamples -/

def sampleRelease : ReleaseInfo :=
  ⟨"demo", "ns1", 1, "deployed", "demo", "1.0.0", "1.0", 0⟩

def baseSpec : AppDeploymentSpec :=
  ⟨"demo", "", "team1", "user1", "", none, [], false, false⟩

def baseRecord : AppDeployment :=
  ⟨"demo", "ns1", [], [], 1, false, [finalizerName], baseSpec, initStatus⟩

/-- An environment where every interaction succeeds and no release exists
yet. -/
def baseEnv : ReconcileEnv :=
  ⟨none, fun _ => .ok [], .ok none, .ok sampleRelease, .ok sampleRelease,
    .ok (), true, true, 7⟩

/-- An environment where every interaction succeeds and the release
already exists. -/
def existsEnv : ReconcileEnv :=
  { baseEnv with getRelease := .ok (some sampleRelease) }

/-- A suspended record that is being deleted: its deletion timestamp is
set and its finalizer is present. -/
def suspendedDeletingRecord : AppDeployment :=
  { baseRecord with
      deletionTimestampSet := true
      spec := { baseSpec with suspend := true } }

/-- A suspended record in steady state (not being deleted, finalizer
present). -/
def suspendedRecord : AppDeployment :=
  { baseRecord with spec := { baseSpec with suspend := true } }

/-- A record being deleted (not suspended). -/
def deletingRecord : AppDeployment :=
  { baseRecord with deletionTimestampSet := true }

def c4Ref : ValuesReference := ⟨"ConfigMap", "app-values", "values.yaml", false⟩

def c4Fetch : ValuesReference → Except Unit (List (String × Value)) :=
  fun _ => .ok [("replicas", Value.num 1), ("size", Value.str "1Gi")]

def c4Spec : AppDeploymentSpec :=
  ⟨"demo", "", "team1", "user1", "", some [("replicas", Value.num 3)],
    [c4Ref], false, false⟩

def c7Dir : ChartDir := [⟨".hidden", true, true⟩]

def c7GoodDir : ChartDir := [⟨"postgresql", true, true⟩, ⟨"notes.txt", false, false⟩]

def c8Payload : DeploymentRequestPayload :=
  ⟨"0123456789abcdef", "t1", "u1", "postgresql", "ns1", "", "1.2.3", none⟩

def c9MapA : List (String × Value) :=
  [("replicas", Value.num 1),
   ("cfg", Value.obj [("x", Value.num 1), ("y", Value.num 2)])]

def c9MapB : List (String × Value) :=
  [("cfg", Value.obj [("y", Value.num 2), ("x", Value.num 1)]),
   ("replicas", Value.num 1)]

def c10Payload : DeploymentRequestPayload :=
  ⟨"abc", "t1", "u1", "postgresql", "ns1", "", "", none⟩

/-! ## C1: suspend -/

/-- C1 counterexample: a suspended record whose deletion timestamp is set
is NOT reconciled as a no-op — the pass changes its status (phase becomes
`Uninstalling`) and makes an uninstall call, because `Reconcile` checks
the deletion timestamp before the suspend flag. -/
theorem c1_counterexample :
    ¬ ((reconcile existsEnv suspendedDeletingRecord).record.status =
          suspendedDeletingRecord.status
        ∧ (reconcile existsEnv suspendedDeletingRecord).effects.uninstalls = []) := by
  decide

/-- C1 (amended): for every record with `spec.Suspend = true` whose
deletion timestamp is NOT set and whose finalizer IS present, `Reconcile`
is a no-op: the record (hence its status) is unchanged, no requeue is
scheduled, no install/upgrade/uninstall call is made, and no error is
returned. -/
theorem c1_suspend_noop (env : ReconcileEnv) (d : AppDeployment)
    (hsusp : d.spec.suspend = true)
    (hdel : d.deletionTimestampSet = false)
    (hfin : finalizerName ∈ d.finalizers) :
    reconcile env d = ⟨d, Effects.empty, CtrlResult.empty, false⟩ := by
  simp [reconcile, hsusp, hdel, hfin]

/-- Witness for `c1_suspend_noop` at a concrete suspended record. -/
theorem c1_suspend_noop_witness :
    reconcile baseEnv suspendedRecord =
      ⟨suspendedRecord, Effects.empty, CtrlResult.empty, false⟩ :=
  c1_suspend_noop baseEnv suspendedRecord rfl rfl (by decide)

/-! ## C2: deletion invariants -/

/-- C2: for every record being deleted (deletion timestamp set, finalizer
present), one pass makes at most one uninstall call; the finalizer is
removed only after the release was observed absent or the uninstall call
succeeded; and whenever the exists-check fails, or the release exists and
the uninstall call fails, the finalizer is kept, the pass requeues after
the failure interval and returns the error. -/
theorem c2_delete_invariants (env : ReconcileEnv) (d : AppDeployment)
    (hdel : d.deletionTimestampSet = true) (hfin : finalizerName ∈ d.finalizers) :
    (reconcile env d).effects.uninstalls.length ≤ 1
    ∧ (finalizerName ∉ (reconcile env d).record.finalizers →
        env.getRelease = .ok none
        ∨ (∃ r, env.getRelease = .ok (some r) ∧ env.uninstallResult = .ok ()))
    ∧ (env.statusOk = true → env.getRelease = .error () →
        finalizerName ∈ (reconcile env d).record.finalizers
        ∧ (reconcile env d).result = ⟨false, requeueAfterFailure⟩
        ∧ (reconcile env d).isErr = true)
    ∧ (env.statusOk = true → (∃ r, env.getRelease = .ok (some r)) →
        env.uninstallResult = .error () →
        finalizerName ∈ (reconcile env d).record.finalizers
        ∧ (reconcile env d).result = ⟨false, requeueAfterFailure⟩
        ∧ (reconcile env d).isErr = true) := by
  obtain ⟨cv, fref, grel, inst, upg, unin, stok, upok, nowv⟩ := env
  cases stok <;> cases upok <;>
    rcases grel with e | ⟨_ | rel⟩ <;>
    rcases unin with u | u <;>
    simp [reconcile, hdel, reconcileDelete, hfin, updateStatusPhase,
      finishDelete, List.mem_filter]

/-- Witness for `c2_delete_invariants` at a concrete deleting record with
an existing release. -/
theorem c2_delete_invariants_witness :
    (reconcile existsEnv deletingRecord).effects.uninstalls.length ≤ 1
    ∧ (finalizerName ∉ (reconcile existsEnv deletingRecord).record.finalizers →
        existsEnv.getRelease = .ok none
        ∨ (∃ r, existsEnv.getRelease = .ok (some r)
            ∧ existsEnv.uninstallResult = .ok ()))
    ∧ (existsEnv.statusOk = true → existsEnv.getRelease = .error () →
        finalizerName ∈ (reconcile existsEnv deletingRecord).record.finalizers
        ∧ (reconcile existsEnv deletingRecord).result = ⟨false, requeueAfterFailure⟩
        ∧ (reconcile existsEnv deletingRecord).isErr = true)
    ∧ (existsEnv.statusOk = true →
        (∃ r, existsEnv.getRelease = .ok (some r)) →
        existsEnv.uninstallResult = .error () →
        finalizerName ∈ (reconcile existsEnv deletingRecord).record.finalizers
        ∧ (reconcile existsEnv deletingRecord).result = ⟨false, requeueAfterFailure⟩
        ∧ (reconcile existsEnv deletingRecord).isErr = true) :=
  c2_delete_invariants existsEnv deletingRecord rfl (by decide)

/-! ## Helper lemmas on status conditions -/

/-- `setStatusCondition` leaves a condition of the new type with the new
status in the list. -/
theorem setStatusCondition_exists (conds : List Condition) (c : Condition) :
    ∃ x ∈ setStatusCondition conds c, x.type = c.type ∧ x.status = c.status := by
  unfold setStatusCondition
  by_cases h : conds.any (fun x => x.type == c.type)
  · rw [if_pos h]
    obtain ⟨y, hy, hty⟩ := List.any_eq_true.mp h
    simp only [beq_iff_eq] at hty
    refine ⟨_, List.mem_map_of_mem _ hy, ?_⟩
    simp [hty]
  · rw [if_neg h]
    exact ⟨c, by simp, rfl, rfl⟩

/-- `setStatusCondition` leaves conditions of other types untouched. -/
theorem setStatusCondition_preserves (conds : List Condition) (c x : Condition)
    (hx : x ∈ conds) (hne : x.type ≠ c.type) : x ∈ setStatusCondition conds c := by
  unfold setStatusCondition
  by_cases h : conds.any (fun y => y.type == c.type)
  · rw [if_pos h]
    have hfix : (fun y : Condition =>
        if y.type = c.type then
          { y with
              status := c.status
              lastTransitionTime :=
                if y.status = c.status then y.lastTransitionTime
                else c.lastTransitionTime
              reason := c.reason
              message := c.message }
        else y) x = x := by simp [hne]
    exact hfix ▸ List.mem_map_of_mem _ hx
  · rw [if_neg h]
    exact List.mem_append_left _ hx

/-- The branch condition of `needsUpgrade`, spelled out. -/
theorem needsUpgrade_iff (d : AppDeployment) (rel : ReleaseInfo) (h : String) :
    needsUpgrade d rel h = true ↔
      (d.status.lastAppliedValuesHash ≠ h
        ∨ (d.spec.chartVersion ≠ "" ∧ d.spec.chartVersion ≠ rel.chartVersion)) := by
  unfold needsUpgrade
  by_cases h1 : d.status.lastAppliedValuesHash = h
  · by_cases h2 : d.spec.chartVersion = ""
    · simp [h1, h2]
    · by_cases h3 : d.spec.chartVersion = rel.chartVersion
      · simp [h1, h2, h3]
      · simp [h1, h2, h3]
  · simp [h1]

/-! ## C3: upgrade trigger condition -/

/-- C3: with an existing release (and the pass reaching the decision:
validation passes, values resolve, status updates succeed), an upgrade
call is made iff the stored values hash differs from the new hash or a
non-empty `spec.ChartVersion` differs by string equality from the deployed
chart version; no install call is made, and an empty `spec.ChartVersion`
with an unchanged hash never triggers an upgrade. -/
theorem c3_upgrade_iff (env : ReconcileEnv) (d : AppDeployment) (rel : ReleaseInfo)
    (vals : List (String × Value))
    (hst : env.statusOk = true)
    (hvalid : chartValidationPasses env d = true)
    (hvals : getValues env.fetchRef d.spec = .ok vals)
    (hrel : env.getRelease = .ok (some rel)) :
    (needsUpgrade d rel (hashValues vals) = true ↔
      (d.status.lastAppliedValuesHash ≠ hashValues vals
        ∨ (d.spec.chartVersion ≠ "" ∧ d.spec.chartVersion ≠ rel.chartVersion)))
    ∧ (reconcileHelm env d).effects.upgrades.length =
        (if needsUpgrade d rel (hashValues vals) = true then 1 else 0)
    ∧ (reconcileHelm env d).effects.installs = []
    ∧ (d.spec.chartVersion = "" → d.status.lastAppliedValuesHash = hashValues vals →
        needsUpgrade d rel (hashValues vals) = false
        ∧ (reconcileHelm env d).effects.upgrades = []) := by
  have hred : ∀ b, needsUpgrade d rel (hashValues vals) = b →
      (reconcileHelm env d).effects.upgrades.length = (if b = true then 1 else 0)
      ∧ (reconcileHelm env d).effects.installs = []
      ∧ (b = false → (reconcileHelm env d).effects.upgrades = []) := by
    intro b hnu
    obtain ⟨cv, fref, grel, inst, upg, unin, stok, upok, nowv⟩ := env
    simp only [ReconcileEnv.getRelease] at hrel
    simp only [ReconcileEnv.fetchRef] at hvals
    simp only [ReconcileEnv.statusOk] at hst
    subst hrel hst
    cases b <;> cases upg <;>
      simp [reconcileHelm, hvalid, hvals, hnu, updateStatusPhase,
        updateStatusDeployed, updateStatusFailed]
  refine ⟨needsUpgrade_iff d rel (hashValues vals), ?_, ?_, ?_⟩
  · exact (hred _ rfl).1
  · exact (hred _ rfl).2.1
  · intro hcv hh
    have hfalse : needsUpgrade d rel (hashValues vals) = false := by
      unfold needsUpgrade
      simp [hcv, hh]
    exact ⟨hfalse, (hred _ hfalse).2.2 rfl⟩

/-- Witness for `c3_upgrade_iff` at a concrete record with an existing
release. -/
theorem c3_upgrade_iff_witness :
    (needsUpgrade baseRecord sampleRelease (hashValues []) = true ↔
      (baseRecord.status.lastAppliedValuesHash ≠ hashValues []
        ∨ (baseRecord.spec.chartVersion ≠ ""
            ∧ baseRecord.spec.chartVersion ≠ sampleRelease.chartVersion)))
    ∧ (reconcileHelm existsEnv baseRecord).effects.upgrades.length =
        (if needsUpgrade baseRecord sampleRelease (hashValues []) = true then 1 else 0)
    ∧ (reconcileHelm existsEnv baseRecord).effects.installs = []
    ∧ (baseRecord.spec.chartVersion = "" →
        baseRecord.status.lastAppliedValuesHash = hashValues [] →
        needsUpgrade baseRecord sampleRelease (hashValues []) = false
        ∧ (reconcileHelm existsEnv baseRecord).effects.upgrades = []) :=
  c3_upgrade_iff existsEnv baseRecord sampleRelease [] rfl rfl rfl rfl

/-! ## Helper lemmas on association-list maps -/

/-- Lookup after a map write. -/
theorem alookup_setKey {α : Type} (l : List (String × α)) (key : String) (v : α)
    (k : String) :
    alookup (setKey l key v) k = if key = k then some v else alookup l k := by
  induction l with
  | nil => simp [setKey, alookup]
  | cons hd rest ih =>
      obtain ⟨k1, w⟩ := hd
      by_cases h1 : k1 = key
      · subst h1
        simp only [setKey, if_pos rfl]
        by_cases h2 : k1 = k
        · subst h2
          simp [alookup]
        · simp [alookup, h2]
      · simp only [setKey, if_neg h1]
        by_cases h2 : k1 = k
        · subst h2
          have h3 : ¬ key = k1 := fun hh => h1 hh.symm
          simp [alookup, h3]
        · simp [alookup, h2, ih]

/-- A key is absent from an association list iff its lookup is `none`. -/
theorem alookup_eq_none_iff {α : Type} (l : List (String × α)) (k : String) :
    alookup l k = none ↔ k ∉ l.map Prod.fst := by
  induction l with
  | nil => simp [alookup]
  | cons hd rest ih =>
      obtain ⟨k1, w⟩ := hd
      by_cases h : k1 = k
      · subst h
        simp [alookup]
      · have h2 : ¬ k = k1 := fun hh => h hh.symm
        simp [alookup, h, h2, ih]

/-- The pointwise description of `mergeMaps`: a key bound in `src` is
merged recursively when both sides bind it to maps and replaced by the
`src` value otherwise; keys not bound in `src` keep their `dst` binding. -/
theorem alookup_mergeMaps (src : List (String × Value)) (dst : List (String × Value))
    (k : String) (h : (src.map Prod.fst).Nodup) :
    alookup (mergeMaps dst src) k =
      match alookup src k with
      | none => alookup dst k
      | some sv =>
          match alookup dst k, sv with
          | some (Value.obj dm), Value.obj sm => some (Value.obj (mergeMaps dm sm))
          | _, _ => some sv := by
  induction src generalizing dst with
  | nil => simp [mergeMaps, alookup]
  | cons hd rest ih =>
      obtain ⟨k1, sv1⟩ := hd
      simp only [List.map_cons, List.nodup_cons] at h
      obtain ⟨hk1, hrest⟩ := h
      simp only [mergeMaps]
      rw [ih _ hrest]
      by_cases hkk : k1 = k
      · subst hkk
        have hr : alookup rest k1 = none := (alookup_eq_none_iff rest k1).mpr hk1
        rw [hr]
        cases hdk : alookup dst k1 with
        | none =>
            cases sv1 <;> simp [alookup, hdk, alookup_setKey, mergeValue]
        | some dv =>
            cases dv <;> cases sv1 <;>
              simp [alookup, hdk, alookup_setKey, mergeValue]
      · have hdst1 :
            alookup (setKey dst k1 (mergeValue (alookup dst k1) sv1)) k =
              alookup dst k := by
          simp [alookup_setKey, hkk]
        rw [hdst1]
        simp [alookup, hkk]

/-- `mergeRefs` aborts iff some reference in the list both fails to fetch
and is not optional. -/
theorem mergeRefs_error_iff
    (fetch : ValuesReference → Except Unit (List (String × Value)))
    (refs : List ValuesReference) (acc : List (String × Value)) :
    mergeRefs fetch refs acc = .error () ↔
      ∃ ref ∈ refs, fetch ref = .error () ∧ ref.optional = false := by
  induction refs generalizing acc with
  | nil => simp [mergeRefs]
  | cons ref rest ih =>
      simp only [mergeRefs]
      cases hf : fetch ref with
      | error e =>
          cases e
          by_cases hopt : ref.optional
          · simp [hopt, ih, hf]
          · simp [hopt, hf]
      | ok rv => simp [ih, hf]

/-! ## C4: values merging -/

/-- C4: `getValues` merges the `valuesFrom` references in declared order
into an initially empty map and then the inline spec values on top.  A key
bound by the later (inline) map wins unless both sides bind maps, in which
case merging recurses; the computation aborts iff some non-optional
reference fails; and on the spec's concrete example the result is
`\x7breplicas:3, size:"1Gi"\x7d`. -/
theorem c4_merge_semantics :
    (∀ (dst src : List (String × Value)) (k : String), (src.map Prod.fst).Nodup →
        alookup (mergeMaps dst src) k =
          match alookup src k with
          | none => alookup dst k
          | some sv =>
              match alookup dst k, sv with
              | some (Value.obj dm), Value.obj sm =>
                  some (Value.obj (mergeMaps dm sm))
              | _, _ => some sv)
    ∧ (∀ (fetch : ValuesReference → Except Unit (List (String × Value)))
          (spec : AppDeploymentSpec),
        getValues fetch spec = .error () ↔
          ∃ ref ∈ spec.valuesFrom, fetch ref = .error () ∧ ref.optional = false)
    ∧ getValues c4Fetch c4Spec =
        .ok [("replicas", Value.num 3), ("size", Value.str "1Gi")] := by
  refine ⟨fun dst src k h => alookup_mergeMaps src dst k h, ?_, ?_⟩
  · intro fetch spec
    unfold getValues
    cases hm : mergeRefs fetch spec.valuesFrom [] with
    | error e =>
        cases e
        simp only [true_iff]
        exact (mergeRefs_error_iff fetch spec.valuesFrom []).mp hm
    | ok vals =>
        have : ¬ ∃ ref ∈ spec.valuesFrom, fetch ref = .error () ∧ ref.optional = false := by
          intro hex
          have := (mergeRefs_error_iff fetch spec.valuesFrom []).mpr hex
          rw [hm] at this
          exact Except.noConfusion this
        cases spec.values <;> simp [this]
  · rfl

/-- Witness for `c4_merge_semantics` (its universally quantified parts
instantiated at the concrete example). -/
theorem c4_merge_semantics_witness :
    alookup (mergeMaps [("replicas", Value.num 1), ("size", Value.str "1Gi")]
        [("replicas", Value.num 3)]) "replicas" =
      match alookup [("replicas", Value.num 3)] "replicas" with
      | none => alookup [("replicas", Value.num 1), ("size", Value.str "1Gi")] "replicas"
      | some sv =>
          match alookup [("replicas", Value.num 1), ("size", Value.str "1Gi")]
              "replicas", sv with
          | some (Value.obj dm), Value.obj sm => some (Value.obj (mergeMaps dm sm))
          | _, _ => some sv := by
  exact c4_merge_semantics.1 [("replicas", Value.num 1), ("size", Value.str "1Gi")]
    [("replicas", Value.num 3)] "replicas" (by simp)

/-! ## C5: first install -/

/-- C5: when no release exists yet (and validation passes, values resolve
and status updates succeed), the pass makes exactly one install call and
no upgrade call, never writes phase `Upgrading`, and ends in phase
`Deployed` on install success — storing release name, revision, deployed
chart version and values hash, resetting the failure counter and setting
a `Ready=True` condition — or in phase `Failed` on install error. -/
theorem c5_first_install (env : ReconcileEnv) (d : AppDeployment)
    (vals : List (String × Value))
    (hst : env.statusOk = true)
    (hvalid : chartValidationPasses env d = true)
    (hvals : getValues env.fetchRef d.spec = .ok vals)
    (hrel : env.getRelease = .ok none) :
    (reconcileHelm env d).effects.installs.length = 1
    ∧ (reconcileHelm env d).effects.upgrades = []
    ∧ Phase.upgrading ∉ (reconcileHelm env d).effects.phaseWrites
    ∧ (∀ rel, env.installResult = .ok rel →
        (reconcileHelm env d).record.status.phase = some Phase.deployed
        ∧ (reconcileHelm env d).record.status.helmReleaseName = rel.name
        ∧ (reconcileHelm env d).record.status.helmReleaseRevision = rel.revision
        ∧ (reconcileHelm env d).record.status.deployedChartVersion = rel.chartVersion
        ∧ (reconcileHelm env d).record.status.lastAppliedValuesHash = hashValues vals
        ∧ (reconcileHelm env d).record.status.failureCount = 0
        ∧ (∃ c ∈ (reconcileHelm env d).record.status.conditions,
            c.type = conditionTypeReady ∧ c.status = true))
    ∧ (env.installResult = .error () →
        (reconcileHelm env d).record.status.phase = some Phase.failed) := by
  obtain ⟨cv, fref, grel, inst, upg, unin, stok, upok, nowv⟩ := env
  simp only [ReconcileEnv.getRelease] at hrel
  simp only [ReconcileEnv.fetchRef] at hvals
  simp only [ReconcileEnv.statusOk] at hst
  subst hrel hst
  cases inst with
  | error e =>
      simp [reconcileHelm, hvalid, hvals, updateStatusPhase,
        updateStatusFailed]
  | ok rel0 =>
      refine ⟨?_, ?_, ?_, ?_, ?_⟩
      · simp [reconcileHelm, hvalid, hvals, updateStatusPhase, updateStatusDeployed]
      · simp [reconcileHelm, hvalid, hvals, updateStatusPhase, updateStatusDeployed]
      · simp [reconcileHelm, hvalid, hvals, updateStatusPhase, updateStatusDeployed]
      · intro rel hrel0
        injection hrel0 with hr0
        subst hr0
        refine ⟨?_, ?_, ?_, ?_, ?_, ?_, ?_⟩ <;>
          simp only [reconcileHelm, hvalid, hvals, updateStatusPhase,
            updateStatusDeployed, if_true, if_pos, ite_true] <;>
          simp [updateStatusPhase, updateStatusDeployed]
        obtain ⟨x, hx, hxt, hxs⟩ := setStatusCondition_exists
          (setStatusCondition d.status.conditions
            ⟨conditionTypeReconciling, true, (Phase.installing).toStringRep,
              "Installing Helm chart", nowv⟩)
          ⟨conditionTypeReady, true, "Deployed",
            "Helm release is deployed and ready", nowv⟩
        refine ⟨x, setStatusCondition_preserves _ _ x hx ?_, hxt, hxs⟩
        rw [hxt]
        simp [conditionTypeReady, conditionTypeReconciling]
      · intro h0
        exact Except.noConfusion h0

/-- Witness for `c5_first_install` at a concrete fresh record. -/
theorem c5_first_install_witness :
    (reconcileHelm baseEnv baseRecord).effects.installs.length = 1
    ∧ (reconcileHelm baseEnv baseRecord).effects.upgrades = []
    ∧ Phase.upgrading ∉ (reconcileHelm baseEnv baseRecord).effects.phaseWrites
    ∧ (∀ rel, baseEnv.installResult = .ok rel →
        (reconcileHelm baseEnv baseRecord).record.status.phase = some Phase.deployed
        ∧ (reconcileHelm baseEnv baseRecord).record.status.helmReleaseName = rel.name
        ∧ (reconcileHelm baseEnv baseRecord).record.status.helmReleaseRevision =
            rel.revision
        ∧ (reconcileHelm baseEnv baseRecord).record.status.deployedChartVersion =
            rel.chartVersion
        ∧ (reconcileHelm baseEnv baseRecord).record.status.lastAppliedValuesHash =
            hashValues []
        ∧ (reconcileHelm baseEnv baseRecord).record.status.failureCount = 0
        ∧ (∃ c ∈ (reconcileHelm baseEnv baseRecord).record.status.conditions,
            c.type = conditionTypeReady ∧ c.status = true))
    ∧ (baseEnv.installResult = .error () →
        (reconcileHelm baseEnv baseRecord).record.status.phase = some Phase.failed) :=
  c5_first_install baseEnv baseRecord [] rfl rfl rfl rfl

/-! ## C6: uninstall of an absent release -/

/-- C6 counterexample: `Client.Uninstall` of a release that does not exist
returns an error, not success — the not-found error of the uninstall
action is wrapped and propagated. -/
theorem c6_counterexample :
    clientUninstall [] "my-release" "default" = .error () := rfl

/-- C6 (amended): `Client.Uninstall` propagates the SDK's not-found error,
so uninstalling an absent release errors; idempotent deletion is instead
provided by `reconcileDelete`, which checks `ReleaseExists` first and,
when the release is absent, makes zero uninstall calls and still removes
the finalizer without error. -/
theorem c6_uninstall_absent :
    (∀ (st : ReleaseStore) (releaseName nspace : String),
        (releaseName, nspace) ∉ st →
        clientUninstall st releaseName nspace = .error ())
    ∧ (∀ (env : ReconcileEnv) (d : AppDeployment),
        d.deletionTimestampSet = true → finalizerName ∈ d.finalizers →
        env.statusOk = true → env.updateOk = true → env.getRelease = .ok none →
        (reconcile env d).effects.uninstalls = []
        ∧ (reconcile env d).isErr = false
        ∧ finalizerName ∉ (reconcile env d).record.finalizers) := by
  constructor
  · intro st releaseName nspace h
    simp [clientUninstall, uninstallActionRun, h]
  · intro env d hdel hfin hst hup hrel
    simp [reconcile, hdel, reconcileDelete, hfin, updateStatusPhase, hst, hrel,
      finishDelete, hup, List.mem_filter]

/-- Witness for `c6_uninstall_absent` at concrete inputs. -/
theorem c6_uninstall_absent_witness :
    clientUninstall [] "demo" "ns1" = .error ()
    ∧ ((reconcile baseEnv deletingRecord).effects.uninstalls = []
        ∧ (reconcile baseEnv deletingRecord).isErr = false
        ∧ finalizerName ∉ (reconcile baseEnv deletingRecord).record.finalizers) :=
  ⟨c6_uninstall_absent.1 [] "demo" "ns1" (by decide),
   c6_uninstall_absent.2 baseEnv deletingRecord rfl (by decide) rfl rfl rfl⟩

/-! ## C7: mirror exists/list agreement -/

/-- C7 counterexample: a hidden directory containing `Chart.yaml` is
reported by `ChartExists` but omitted by `ListCharts`, so the two queries
do not classify by the same criterion. -/
theorem c7_counterexample :
    ¬ (chartExists c7Dir ".hidden" = true ↔ ".hidden" ∈ listCharts c7Dir) := by
  decide

/-- C7 (amended): for every non-hidden name (no leading dot),
`ChartExists x = true` iff `x` appears in `ListCharts`; `ChartExists`
checks only that `x/Chart.yaml` stats (hidden or not), while `ListCharts`
additionally excludes hidden directories. -/
theorem c7_exists_iff_listed (dir : ChartDir) (x : String)
    (hx : hiddenName x = false) :
    chartExists dir x = true ↔ x ∈ listCharts dir := by
  constructor
  · intro h
    obtain ⟨e, he, hp⟩ := List.any_eq_true.mp h
    simp only [Bool.and_eq_true, beq_iff_eq] at hp
    obtain ⟨⟨hname, hdir⟩, hyaml⟩ := hp
    refine List.mem_map.mpr ⟨e, List.mem_filter.mpr ⟨he, ?_⟩, hname⟩
    simp only [Bool.and_eq_true, Bool.not_eq_true']
    exact ⟨⟨hdir, by rw [hname, hx]⟩, by rw [hname]; exact h⟩
  · intro h
    obtain ⟨e, hef, hname⟩ := List.mem_map.mp h
    have hp := (List.mem_filter.mp hef).2
    simp only [Bool.and_eq_true] at hp
    rw [← hname]
    exact hp.2

/-- Witness for `c7_exists_iff_listed` at a concrete charts directory. -/
theorem c7_exists_iff_listed_witness :
    chartExists c7GoodDir "postgresql" = true ↔
      "postgresql" ∈ listCharts c7GoodDir :=
  c7_exists_iff_listed c7GoodDir "postgresql" (by decide)

/-! ## C8: redelivery idempotence -/

/-- C8: two deliveries of the same deployment request (same request id,
hence the same resolved name) create exactly one record: the first
delivery creates it and succeeds, the second observes `AlreadyExists`,
succeeds, and leaves the store unchanged. -/
theorem c8_redelivery_idempotent (store : List AppDeployment)
    (p : DeploymentRequestPayload) (name : String)
    (hname : resolvedName p = some name)
    (hnew : crExists store p.nspace name = false) :
    handleDeploymentRequest store p = some (.ok (store ++ [mkAppDeployment p name]))
    ∧ handleDeploymentRequest (store ++ [mkAppDeployment p name]) p =
        some (.ok (store ++ [mkAppDeployment p name]))
    ∧ ((store ++ [mkAppDeployment p name]).filter
          (fun r : AppDeployment => r.nspace == p.nspace && r.name == name)).length = 1 := by
  refine ⟨?_, ?_, ?_⟩
  · simp [handleDeploymentRequest, hname, hnew]
  · have hex : crExists (store ++ [mkAppDeployment p name]) p.nspace name = true := by
      unfold crExists
      rw [List.any_append]
      simp [mkAppDeployment]
    simp [handleDeploymentRequest, hname, hex]
  · rw [List.filter_append]
    have h1 : store.filter (fun r : AppDeployment => r.nspace == p.nspace && r.name == name) = [] := by
      rw [List.filter_eq_nil_iff]
      intro r hr
      have := List.any_eq_false.mp hnew r hr
      simpa using this
    rw [h1]
    simp [mkAppDeployment]

/-- Witness for `c8_redelivery_idempotent` at a concrete request. -/
theorem c8_redelivery_idempotent_witness :
    handleDeploymentRequest [] c8Payload =
      some (.ok ([] ++ [mkAppDeployment c8Payload "postgresql-01234567"]))
    ∧ handleDeploymentRequest ([] ++ [mkAppDeployment c8Payload "postgresql-01234567"])
        c8Payload =
        some (.ok ([] ++ [mkAppDeployment c8Payload "postgresql-01234567"]))
    ∧ (([] ++ [mkAppDeployment c8Payload "postgresql-01234567"]).filter
          (fun r : AppDeployment => r.nspace == c8Payload.nspace
            && r.name == "postgresql-01234567")).length = 1 :=
  c8_redelivery_idempotent [] c8Payload "postgresql-01234567" rfl rfl

/-! ## Helper lemmas for the hash determinism claim -/

theorem sortPairs_perm {α : Type} (l : List (String × α)) : (sortPairs l).Perm l :=
  List.perm_insertionSort keyLE l

theorem sortPairs_sorted {α : Type} (l : List (String × α)) :
    List.Sorted keyLE (sortPairs l) :=
  List.sorted_insertionSort keyLE l

/-- In a duplicate-free association list, lookup answers are exactly
membership. -/
theorem alookup_eq_some_iff {α : Type} {l : List (String × α)}
    (hl : (l.map Prod.fst).Nodup) {k : String} {v : α} :
    alookup l k = some v ↔ (k, v) ∈ l := by
  induction l with
  | nil => simp [alookup]
  | cons hd rest ih =>
      obtain ⟨k1, w⟩ := hd
      simp only [List.map_cons, List.nodup_cons] at hl
      obtain ⟨hk1, hrest⟩ := hl
      by_cases h : k1 = k
      · subst h
        simp only [alookup, if_pos rfl, List.mem_cons, Prod.mk.injEq, true_and]
        constructor
        · intro hv
          exact Or.inl (Option.some.inj hv).symm
        · rintro (hv | hmem)
          · simp [hv]
          · exact absurd (List.mem_map_of_mem Prod.fst hmem) hk1
      · simp only [alookup, if_neg h, List.mem_cons, Prod.mk.injEq]
        rw [ih hrest]
        constructor
        · exact Or.inr
        · rintro (⟨hk, _⟩ | hmem)
          · exact absurd hk.symm h
          · exact hmem

/-- Two duplicate-free association lists defining the same lookup function
sort to the same list. -/
theorem sortPairs_eq_of_alookup_eq {α : Type} (fs gs : List (String × α))
    (hf : (fs.map Prod.fst).Nodup) (hg : (gs.map Prod.fst).Nodup)
    (h : ∀ k, alookup fs k = alookup gs k) : sortPairs fs = sortPairs gs := by
  have hfs : fs.Nodup := List.Nodup.of_map Prod.fst hf
  have hgs : gs.Nodup := List.Nodup.of_map Prod.fst hg
  have hmem : ∀ a : String × α, a ∈ fs ↔ a ∈ gs := by
    rintro ⟨k, v⟩
    rw [← alookup_eq_some_iff hf, ← alookup_eq_some_iff hg, h k]
  have hperm : fs.Perm gs := (List.perm_ext_iff_of_nodup hfs hgs).mpr hmem
  have hsp : (sortPairs fs).Perm (sortPairs gs) :=
    (sortPairs_perm fs).trans (hperm.trans (sortPairs_perm gs).symm)
  have hsorted : ∀ (l : List (String × α)), (l.map Prod.fst).Nodup →
      List.Sorted (keyLT (α := α)) (sortPairs l) := by
    intro l hl
    have hle : List.Sorted (keyLE (α := α)) (sortPairs l) := sortPairs_sorted l
    have hnd : ((sortPairs l).map Prod.fst).Nodup :=
      (((sortPairs_perm l).map Prod.fst).nodup_iff).mpr hl
    have hne : List.Pairwise (fun p q : String × α => p.1 ≠ q.1) (sortPairs l) :=
      List.pairwise_map.mp hnd
    exact (hle.and hne).imp (fun hpq => lt_of_le_of_ne hpq.1 hpq.2)
  exact List.eq_of_perm_of_sorted hsp (hsorted fs hf) (hsorted gs hg)

/-- Lookup commutes with mapping over the values of an association
list. -/
theorem alookup_map_snd {α β : Type} (f : α → β) (l : List (String × α)) (k : String) :
    alookup (l.map (fun kv => (kv.1, f kv.2))) k = (alookup l k).map f := by
  induction l with
  | nil => simp [alookup]
  | cons hd rest ih =>
      obtain ⟨k1, w⟩ := hd
      by_cases h : k1 = k <;> simp [alookup, h, ih]

theorem marshalFields_eq_map (fs : List (String × Value)) :
    marshalFields fs = fs.map (fun kv => (kv.1, jsonMarshal kv.2)) := by
  induction fs with
  | nil => simp [marshalFields]
  | cons hd rest ih =>
      obtain ⟨k, v⟩ := hd
      simp [marshalFields, ih]

theorem marshalElems_eq_map (xs : List Value) :
    marshalElems xs = xs.map jsonMarshal := by
  induction xs with
  | nil => simp [marshalElems]
  | cons hd rest ih => simp [marshalElems, ih]

/-- Serialization maps equivalent trees to the same bytes: arrays by
element-wise equality, objects because both sides sort their (identical)
key-to-rendered-value maps. -/
theorem jsonMarshal_vequiv {v w : Value} (h : VEquiv v w) :
    jsonMarshal v = jsonMarshal w := by
  induction h with
  | null => rfl
  | bool b => rfl
  | num n => rfl
  | str s => rfl
  | arr xs ys hlen hpt ih =>
      have hmap : marshalElems xs = marshalElems ys := by
        rw [marshalElems_eq_map, marshalElems_eq_map]
        refine List.ext_get (by simp [hlen]) ?_
        intro n h1 h2
        simp only [List.get_eq_getElem, List.getElem_map]
        exact ih n (by simpa using h1) (by simpa using h2)
      simp [jsonMarshal, hmap]
  | obj fs gs hf hg hdom hval ih =>
      have hkeysf : ((marshalFields fs).map Prod.fst).Nodup := by
        rw [marshalFields_eq_map, List.map_map]
        simpa using hf
      have hkeysg : ((marshalFields gs).map Prod.fst).Nodup := by
        rw [marshalFields_eq_map, List.map_map]
        simpa using hg
      have hlook : ∀ k, alookup (marshalFields fs) k = alookup (marshalFields gs) k := by
        intro k
        rw [marshalFields_eq_map, marshalFields_eq_map,
          alookup_map_snd, alookup_map_snd]
        cases hfk : alookup fs k with
        | none =>
            rw [(hdom k).mp hfk]
        | some v0 =>
            cases hgk : alookup gs k with
            | none =>
                exact absurd ((hdom k).mpr hgk) (by simp [hfk])
            | some w0 =>
                simp [ih k v0 w0 hfk hgk]
      have hs : sortPairs (marshalFields fs) = sortPairs (marshalFields gs) :=
        sortPairs_eq_of_alookup_eq _ _ hkeysf hkeysg hlook
      simp [jsonMarshal, hs]

/-! ## C9: hash determinism -/

/-- C9: `hashValues` depends only on the key-value tree: any two values
maps that are equal as trees (same keys bound to equivalent values at
every nesting level, in any insertion order) hash to the same string,
because `json.Marshal` canonicalizes map key order. -/
theorem c9_hash_deterministic (a b : List (String × Value))
    (h : VEquiv (Value.obj a) (Value.obj b)) :
    hashValues a = hashValues b := by
  unfold hashValues
  rw [jsonMarshal_vequiv h]

/-- Witness for `c9_hash_deterministic`: two insertion orders of the same
nested map hash identically. -/
theorem c9_hash_deterministic_witness : hashValues c9MapA = hashValues c9MapB := by
  refine c9_hash_deterministic c9MapA c9MapB ?_
  refine VEquiv.obj _ _ (by decide) (by decide) ?_ ?_
  · intro k
    by_cases h1 : "replicas" = k
    · subst h1
      simp [c9MapA, c9MapB, alookup]
    · by_cases h2 : "cfg" = k
      · subst h2
        simp [c9MapA, c9MapB, alookup]
      · simp [c9MapA, c9MapB, alookup, h1, h2]
  · intro k v w hv hw
    by_cases h1 : "replicas" = k
    · subst h1
      simp [c9MapA, alookup] at hv
      simp [c9MapB, alookup] at hw
      subst hv
      subst hw
      exact VEquiv.num 1
    · by_cases h2 : "cfg" = k
      · subst h2
        simp [c9MapA, alookup] at hv
        simp [c9MapB, alookup] at hw
        subst hv
        subst hw
        refine VEquiv.obj _ _ (by decide) (by decide) ?_ ?_
        · intro k2
          by_cases h3 : "x" = k2
          · subst h3
            simp [alookup]
          · by_cases h4 : "y" = k2
            · subst h4
              simp [alookup]
            · simp [alookup, h3, h4]
        · intro k2 v2 w2 hv2 hw2
          by_cases h3 : "x" = k2
          · subst h3
            simp [alookup] at hv2 hw2
            subst hv2
            subst hw2
            exact VEquiv.num 1
          · by_cases h4 : "y" = k2
            · subst h4
              simp [alookup] at hv2 hw2
              subst hv2
              subst hw2
              exact VEquiv.num 2
            · simp [alookup, h3, h4] at hv2
      · simp [c9MapA, alookup, h1, h2] at hv

/-! ## C10: short request id panics -/

/-- C10: with an empty release name and a request id shorter than 8
characters, `HandleDeploymentRequest` panics (the `RequestID[:8]` slice is
out of range), modelled as `none`; with a non-empty release name or a
request id of at least 8 characters the handler returns normally. -/
theorem c10_short_request_id (store : List AppDeployment)
    (p : DeploymentRequestPayload)
    (hrel : p.releaseName = "") (hlen : p.requestID.length < 8) :
    handleDeploymentRequest store p = none
    ∧ (∀ (store2 : List AppDeployment) (q : DeploymentRequestPayload),
        (q.releaseName ≠ "" ∨ 8 ≤ q.requestID.length) →
        (handleDeploymentRequest store2 q).isSome = true) := by
  constructor
  · simp [handleDeploymentRequest, resolvedName, hrel, hlen]
  · intro store2 q hq
    unfold handleDeploymentRequest
    rcases hname : resolvedName q with _ | name
    · exfalso
      unfold resolvedName at hname
      by_cases hqr : q.releaseName = ""
      · have h8 : ¬ q.requestID.length < 8 := by
          rcases hq with h | h
          · exact absurd hqr h
          · omega
        rw [if_pos hqr, if_neg h8] at hname
        exact Option.noConfusion hname
      · rw [if_neg hqr] at hname
        exact Option.noConfusion hname
    · dsimp only
      split <;> simp

/-- Witness for `c10_short_request_id` at a concrete short-id payload. -/
theorem c10_short_request_id_witness :
    handleDeploymentRequest [] c10Payload = none :=
  (c10_short_request_id [] c10Payload rfl (by decide)).1

end Appstore
